import Mathlib

/-!
Verification development for the local-md-kanban client core.

The definitions below are a shallow embedding of the client-side state
synchronization layer of the repository: the sort engine and task store
(src/src/hooks/useTasks.ts), the drag-and-drop board orchestration
(src/src/components/KanbanBoard.tsx and the git-enabled board in
src/src/components/TaskModal.tsx), and the git-sync hook (useGitSync).

JavaScript strings are modelled by Lean `String` (with its lexicographic
order, matching `localeCompare` on the ASCII timestamp/date formats used
here), machine integers returned by comparators by `Int`, nullable values
by `Option`, and fallible backend calls by `Except String`.
-/

namespace Kanban

/-- Task status, from `export type Status` in src/types. -/
inductive Status where
  | notStarted
  | inProgress
  | done
deriving DecidableEq, Repr

/-- The string literal each status is written as in the source
(`"未着手" | "着手中" | "完了"`). -/
def Status.str : Status → String
  | .notStarted => "未着手"
  | .inProgress => "着手中"
  | .done => "完了"

/-- Task priority, from `export type Priority` (`"低" | "中" | "高"`). -/
inductive Priority where
  | low
  | mid
  | high
deriving DecidableEq, Repr

/-- A subtask `{text, completed}`, from `export interface SubTask`. -/
structure SubTask where
  text : String
  completed : Bool
deriving DecidableEq, Repr

/-- A task record, from `export interface Task` in src/types. -/
structure Task where
  filePath : String
  title : String
  created : String
  updated : String
  status : Status
  priority : Priority
  due : String
  assignee : String
  subTasks : List SubTask
  memo : String
deriving DecidableEq, Repr

/-- The eight sort options, from `export type SortOption`. -/
inductive SortOption where
  | createdDesc
  | createdAsc
  | updatedDesc
  | updatedAsc
  | dueAsc
  | dueDesc
  | priorityDesc
  | priorityAsc
deriving DecidableEq, Repr

/-- `PRIORITY_WEIGHT` from src/src/hooks/useTasks.ts (高=3, 中=2, 低=1). -/
def PRIORITY_WEIGHT : Priority → Int
  | .high => 3
  | .mid => 2
  | .low => 1

/-- Model of `a.localeCompare(b)` on the plain ASCII-format strings used by
the sort comparators: negative when `a < b`, positive when `b < a`, zero on
equality (lexicographic = the locale order for these fixed-format strings). -/
def strCmp (a b : String) : Int :=
  if a < b then -1 else if b < a then 1 else 0

/-- The comparator passed to `sorted.sort(...)` in `sortTasks`
(src/src/hooks/useTasks.ts lines 20-51), one case per `SortOption`.
The `default: return 0` branch of the source switch is unreachable because
`SortOption` is a closed union of the eight cases. -/
def cmpTasks (o : SortOption) (a b : Task) : Int :=
  match o with
  | .createdDesc => strCmp b.created a.created
  | .createdAsc => strCmp a.created b.created
  | .updatedDesc => strCmp b.updated a.updated
  | .updatedAsc => strCmp a.updated b.updated
  | .dueAsc =>
      if a.due = "-" then 1
      else if b.due = "-" then -1
      else strCmp a.due b.due
  | .dueDesc =>
      if a.due = "-" then 1
      else if b.due = "-" then -1
      else strCmp b.due a.due
  | .priorityDesc => PRIORITY_WEIGHT b.priority - PRIORITY_WEIGHT a.priority
  | .priorityAsc => PRIORITY_WEIGHT a.priority - PRIORITY_WEIGHT b.priority

/-- The placement relation induced by the comparator: `rOpt o x y` says `x`
may be placed at or before `y`, i.e. `y` does not strictly precede `x` under
the comparator (`comparator(y, x) ≥ 0`).  A stable sort by a JavaScript
comparator (ECMAScript `Array.prototype.sort` is stable) places the elements
exactly as an insertion sort under this relation does: each element is
inserted before the first already-placed element that strictly follows it. -/
def rOpt (o : SortOption) (x y : Task) : Prop :=
  0 ≤ cmpTasks o y x

instance (o : SortOption) : DecidableRel (rOpt o) := fun x y => by
  unfold rOpt; infer_instance

/-- `sortTasks` from src/src/hooks/useTasks.ts lines 17-54: copies the input
and sorts it with the comparator `cmpTasks o` via the engine's stable sort. -/
def sortTasks (tasks : List Task) (o : SortOption) : List Task :=
  List.insertionSort (rOpt o) tasks

/-- The sort key each comparator compares by, as a Boolean equivalence:
equal `created`/`updated`/`due` strings, resp. equal priority weights. -/
def keyEqB (o : SortOption) (a b : Task) : Bool :=
  match o with
  | .createdDesc | .createdAsc => a.created == b.created
  | .updatedDesc | .updatedAsc => a.updated == b.updated
  | .dueAsc | .dueDesc => a.due == b.due
  | .priorityDesc | .priorityAsc =>
      PRIORITY_WEIGHT a.priority == PRIORITY_WEIGHT b.priority

theorem strCmp_nonneg {a b : String} : 0 ≤ strCmp a b ↔ b ≤ a := by
  unfold strCmp
  split_ifs with h1 h2
  · exact iff_of_false (by norm_num) (not_le.mpr h1)
  · exact iff_of_true (by norm_num) h2.le
  · have hab : a = b := le_antisymm (not_lt.mp h2) (not_lt.mp h1)
    exact iff_of_true le_rfl hab.ge

theorem rOpt_createdAsc {x y : Task} :
    rOpt .createdAsc x y ↔ x.created ≤ y.created := by
  unfold rOpt cmpTasks; exact strCmp_nonneg

theorem rOpt_createdDesc {x y : Task} :
    rOpt .createdDesc x y ↔ y.created ≤ x.created := by
  unfold rOpt cmpTasks; exact strCmp_nonneg

theorem rOpt_updatedAsc {x y : Task} :
    rOpt .updatedAsc x y ↔ x.updated ≤ y.updated := by
  unfold rOpt cmpTasks; exact strCmp_nonneg

theorem rOpt_updatedDesc {x y : Task} :
    rOpt .updatedDesc x y ↔ y.updated ≤ x.updated := by
  unfold rOpt cmpTasks; exact strCmp_nonneg

theorem rOpt_dueAsc {x y : Task} :
    rOpt .dueAsc x y ↔
      (y.due = "-" ∨ (x.due ≠ "-" ∧ y.due ≠ "-" ∧ x.due ≤ y.due)) := by
  unfold rOpt cmpTasks
  split_ifs with h1 h2
  · exact iff_of_true (by norm_num) (Or.inl h1)
  · exact iff_of_false (by norm_num) (by simp [h1, h2])
  · rw [strCmp_nonneg]; simp [h1, h2]

theorem rOpt_dueDesc {x y : Task} :
    rOpt .dueDesc x y ↔
      (y.due = "-" ∨ (x.due ≠ "-" ∧ y.due ≠ "-" ∧ y.due ≤ x.due)) := by
  unfold rOpt cmpTasks
  split_ifs with h1 h2
  · exact iff_of_true (by norm_num) (Or.inl h1)
  · exact iff_of_false (by norm_num) (by simp [h1, h2])
  · rw [strCmp_nonneg]; simp [h1, h2]

theorem rOpt_priorityAsc {x y : Task} :
    rOpt .priorityAsc x y ↔
      PRIORITY_WEIGHT x.priority ≤ PRIORITY_WEIGHT y.priority := by
  unfold rOpt; simp only [cmpTasks]; omega

theorem rOpt_priorityDesc {x y : Task} :
    rOpt .priorityDesc x y ↔
      PRIORITY_WEIGHT y.priority ≤ PRIORITY_WEIGHT x.priority := by
  unfold rOpt; simp only [cmpTasks]; omega

instance (o : SortOption) : IsTotal Task (rOpt o) := by
  constructor
  intro x y
  cases o with
  | createdAsc => rw [rOpt_createdAsc, rOpt_createdAsc]; exact le_total _ _
  | createdDesc => rw [rOpt_createdDesc, rOpt_createdDesc]; exact le_total _ _
  | updatedAsc => rw [rOpt_updatedAsc, rOpt_updatedAsc]; exact le_total _ _
  | updatedDesc => rw [rOpt_updatedDesc, rOpt_updatedDesc]; exact le_total _ _
  | dueAsc =>
      rw [rOpt_dueAsc, rOpt_dueAsc]
      by_cases hy : y.due = "-"
      · exact Or.inl (Or.inl hy)
      · by_cases hx : x.due = "-"
        · exact Or.inr (Or.inl hx)
        · rcases le_total x.due y.due with h | h
          · exact Or.inl (Or.inr ⟨hx, hy, h⟩)
          · exact Or.inr (Or.inr ⟨hy, hx, h⟩)
  | dueDesc =>
      rw [rOpt_dueDesc, rOpt_dueDesc]
      by_cases hy : y.due = "-"
      · exact Or.inl (Or.inl hy)
      · by_cases hx : x.due = "-"
        · exact Or.inr (Or.inl hx)
        · rcases le_total x.due y.due with h | h
          · exact Or.inr (Or.inr ⟨hy, hx, h⟩)
          · exact Or.inl (Or.inr ⟨hx, hy, h⟩)
  | priorityAsc =>
      rw [rOpt_priorityAsc, rOpt_priorityAsc]; exact le_total _ _
  | priorityDesc =>
      rw [rOpt_priorityDesc, rOpt_priorityDesc]; exact le_total _ _

instance (o : SortOption) : IsTrans Task (rOpt o) := by
  constructor
  intro x y z hxy hyz
  cases o with
  | createdAsc =>
      rw [rOpt_createdAsc] at *; exact hxy.trans hyz
  | createdDesc =>
      rw [rOpt_createdDesc] at *; exact hyz.trans hxy
  | updatedAsc =>
      rw [rOpt_updatedAsc] at *; exact hxy.trans hyz
  | updatedDesc =>
      rw [rOpt_updatedDesc] at *; exact hyz.trans hxy
  | dueAsc =>
      rw [rOpt_dueAsc] at *
      rcases hyz with hz | ⟨hy, hz, hyz'⟩
      · exact Or.inl hz
      · rcases hxy with hy' | ⟨hx, _, hxy'⟩
        · exact absurd hy' hy
        · exact Or.inr ⟨hx, hz, hxy'.trans hyz'⟩
  | dueDesc =>
      rw [rOpt_dueDesc] at *
      rcases hyz with hz | ⟨hy, hz, hyz'⟩
      · exact Or.inl hz
      · rcases hxy with hy' | ⟨hx, _, hxy'⟩
        · exact absurd hy' hy
        · exact Or.inr ⟨hx, hz, hyz'.trans hxy'⟩
  | priorityAsc =>
      rw [rOpt_priorityAsc] at *; exact hxy.trans hyz
  | priorityDesc =>
      rw [rOpt_priorityDesc] at *; exact hyz.trans hxy

/-- Key-equal tasks never strictly precede one another under the comparator:
either one may be placed before the other. -/
theorem keyEqB_rOpt {o : SortOption} {x y : Task}
    (h : keyEqB o x y = true) : rOpt o x y := by
  cases o with
  | createdAsc =>
      rw [rOpt_createdAsc]
      exact le_of_eq (by simpa [keyEqB] using h)
  | createdDesc =>
      rw [rOpt_createdDesc]
      exact ge_of_eq (by simpa [keyEqB] using h)
  | updatedAsc =>
      rw [rOpt_updatedAsc]
      exact le_of_eq (by simpa [keyEqB] using h)
  | updatedDesc =>
      rw [rOpt_updatedDesc]
      exact ge_of_eq (by simpa [keyEqB] using h)
  | dueAsc =>
      have hd : x.due = y.due := by simpa [keyEqB] using h
      rw [rOpt_dueAsc]
      by_cases hy : y.due = "-"
      · exact Or.inl hy
      · exact Or.inr ⟨hd ▸ hy, hy, le_of_eq hd⟩
  | dueDesc =>
      have hd : x.due = y.due := by simpa [keyEqB] using h
      rw [rOpt_dueDesc]
      by_cases hy : y.due = "-"
      · exact Or.inl hy
      · exact Or.inr ⟨hd ▸ hy, hy, ge_of_eq hd⟩
  | priorityAsc =>
      rw [rOpt_priorityAsc]
      exact le_of_eq (by simpa [keyEqB] using h)
  | priorityDesc =>
      rw [rOpt_priorityDesc]
      exact ge_of_eq (by simpa [keyEqB] using h)

theorem keyEqB_trans_through {o : SortOption} {x y z : Task}
    (hx : keyEqB o x z = true) (hy : keyEqB o y z = true) :
    keyEqB o x y = true := by
  cases o <;> simp only [keyEqB, beq_iff_eq] at hx hy ⊢ <;> rw [hx, hy]

/-- Inserting an element that may precede every element of interest puts it
in front of the filtered view: stability of one `orderedInsert` step. -/
theorem filter_orderedInsert_pos {α : Type} (r : α → α → Prop) [DecidableRel r]
    (p : α → Bool) (x : α) (hx : p x = true) (h : ∀ y, p y = true → r x y) :
    ∀ l : List α, (List.orderedInsert r x l).filter p = x :: l.filter p
  | [] => by simp [List.orderedInsert, hx]
  | b :: l => by
    by_cases hrb : r x b
    · rw [List.orderedInsert, if_pos hrb, List.filter_cons, if_pos hx]
    · have hb : p b = false := by
        cases hpb : p b with
        | true => exact absurd (h b hpb) hrb
        | false => rfl
      rw [List.orderedInsert, if_neg hrb, List.filter_cons, if_neg (by simp [hb]),
        filter_orderedInsert_pos r p x hx h l, List.filter_cons,
        if_neg (by simp [hb])]

theorem filter_orderedInsert_neg {α : Type} (r : α → α → Prop) [DecidableRel r]
    (p : α → Bool) (x : α) (hx : p x = false) :
    ∀ l : List α, (List.orderedInsert r x l).filter p = l.filter p
  | [] => by simp [List.orderedInsert, hx]
  | b :: l => by
    by_cases hrb : r x b
    · rw [List.orderedInsert, if_pos hrb, List.filter_cons, if_neg (by simp [hx])]
    · rw [List.orderedInsert, if_neg hrb, List.filter_cons,
        filter_orderedInsert_neg r p x hx l, List.filter_cons]

/-- Insertion sort is stable: the filtered view over any class of mutually
placeable elements is preserved verbatim. -/
theorem filter_insertionSort {α : Type} (r : α → α → Prop) [DecidableRel r]
    (p : α → Bool) (h : ∀ x y, p x = true → p y = true → r x y) :
    ∀ l : List α, (List.insertionSort r l).filter p = l.filter p
  | [] => rfl
  | a :: l => by
    rw [List.insertionSort]
    cases hpa : p a with
    | true =>
        rw [filter_orderedInsert_pos r p a hpa (fun y hy => h a y hpa hy),
          filter_insertionSort r p h l, List.filter_cons, if_pos hpa]
    | false =>
        rw [filter_orderedInsert_neg r p a hpa, filter_insertionSort r p h l,
          List.filter_cons, if_neg (by simp [hpa])]

theorem sortTasks_perm (l : List Task) (o : SortOption) :
    (sortTasks l o).Perm l :=
  List.perm_insertionSort (rOpt o) l

theorem sortTasks_sorted (l : List Task) (o : SortOption) :
    List.Sorted (rOpt o) (sortTasks l o) :=
  List.sorted_insertionSort (rOpt o) l

/-- C2: for every task list and every one of the eight sort options, `sortTasks`
returns a permutation of the same multiset of tasks and is stable: restricted
to the tasks that compare equal to any fixed task under the chosen sort key,
the output lists them exactly as the input did (same elements, same relative
order). -/
theorem C2_sort_perm_stable (l : List Task) (o : SortOption) :
    (sortTasks l o).Perm l ∧
      ∀ z : Task, (sortTasks l o).filter (fun t => keyEqB o t z) =
        l.filter (fun t => keyEqB o t z) := by
  refine ⟨sortTasks_perm l o, fun z => ?_⟩
  exact filter_insertionSort (rOpt o) (fun t => keyEqB o t z)
    (fun x y hx hy => keyEqB_rOpt (keyEqB_trans_through hx hy)) l

/-- C4: under both `due-asc` and `due-desc`, every task whose `due` is the
sentinel `"-"` is placed after every task with a real due date (no sentinel
task ever precedes a real-dated one), and among tasks with real dates the
ordering is lexical string comparison in the requested direction. -/
theorem C4_due_sentinel_last (l : List Task) :
    ((sortTasks l .dueAsc).Pairwise fun a b =>
        (a.due = "-" → b.due = "-") ∧
        (a.due ≠ "-" → b.due ≠ "-" → a.due ≤ b.due)) ∧
    ((sortTasks l .dueDesc).Pairwise fun a b =>
        (a.due = "-" → b.due = "-") ∧
        (a.due ≠ "-" → b.due ≠ "-" → b.due ≤ a.due)) := by
  constructor
  · refine (sortTasks_sorted l .dueAsc).imp ?_
    intro a b hab
    rw [rOpt_dueAsc] at hab
    rcases hab with hb | ⟨ha, hb, hle⟩
    · exact ⟨fun _ => hb, fun _ hb' => absurd hb hb'⟩
    · exact ⟨fun ha' => absurd ha' ha, fun _ _ => hle⟩
  · refine (sortTasks_sorted l .dueDesc).imp ?_
    intro a b hab
    rw [rOpt_dueDesc] at hab
    rcases hab with hb | ⟨ha, hb, hle⟩
    · exact ⟨fun _ => hb, fun _ hb' => absurd hb hb'⟩
    · exact ⟨fun ha' => absurd ha' ha, fun _ _ => hle⟩

/-- C5: re-sorting an already-sorted sequence with the same option is
idempotent — `sortTasks (sortTasks l o) o` is identical, element for element,
to `sortTasks l o`. -/
theorem C5_sort_idempotent (l : List Task) (o : SortOption) :
    sortTasks (sortTasks l o) o = sortTasks l o :=
  (sortTasks_sorted l o).insertionSort_eq

/-!
### TaskStore (the `useTasks` hook, src/src/hooks/useTasks.ts)

React state is modelled as an explicit record; each async operation becomes a
function from the pre-state and the backend's response (an `Except`) to the
quiescent post-state, mirroring the statement order of the hook body.
-/

/-- The state owned by `useTasks`: `tasks`, `loading`, `error`, `sortOption`. -/
structure TaskState where
  tasks : List Task
  loading : Bool
  error : Option String
  sortOption : SortOption
deriving Repr

/-- `loadTasks` (useTasks.ts lines 68-81): on a successful `get_tasks` the
fetched list replaces `tasks`, sorted under the current option, and the error
is cleared; on failure the error message is recorded and `tasks` is left
unchanged.  `loading` is raised and lowered around the call, so it is `false`
in the quiescent state. -/
def loadTasksRun (st : TaskState) (res : Except String (List Task)) :
    TaskState :=
  match res with
  | .ok l => { st with tasks := sortTasks l st.sortOption, error := none,
                       loading := false }
  | .error e => { st with error := some e, loading := false }

/-- The synchronous optimistic step of `saveTask` (useTasks.ts lines 94-100):
stamp the argument's `updated` field with the current time and replace, in
place, every entry of the collection whose `filePath` matches it, then
re-sort under the current option. -/
def optimisticSave (tasks : List Task) (u : Task) (now : String)
    (o : SortOption) : List Task :=
  sortTasks
    (tasks.map fun t =>
      if t.filePath = u.filePath then { u with updated := now } else t) o

/-- `saveTask` (useTasks.ts lines 86-111): apply the optimistic replacement
synchronously, then persist in the background; if persistence fails, record
the error and re-invoke `loadTasksRun` with the backend's answer to the
reload. -/
def saveTaskRun (st : TaskState) (u : Task) (now : String)
    (saveRes : Except String Unit) (loadRes : Except String (List Task)) :
    TaskState :=
  let st1 := { st with tasks := optimisticSave st.tasks u now st.sortOption }
  match saveRes with
  | .ok _ => st1
  | .error e => loadTasksRun { st1 with error := some e } loadRes

/-- C1: if the backend persistence of `saveTask` fails, the store re-invokes
`load()`; a save failure followed by a successful load leaves the canonical
collection equal to the backend's authoritative collection sorted under the
current sort option — the optimistic replacement (which depended on the task
argument `u` and on `now`) is discarded without trace. -/
theorem C1_save_failure_reconciles (st : TaskState) (u : Task) (now : String)
    (e : String) (backend : List Task) :
    (saveTaskRun st u now (.error e) (.ok backend)).tasks =
      sortTasks backend st.sortOption := rfl

/-- C10: the synchronous optimistic step of `saveTask` preserves collection
membership — the multiset of `filePath` keys of the collection is unchanged:
a matching entry is replaced under its own key, and when no entry matches, no
entry is inserted or removed. -/
theorem C10_optimistic_preserves_keys (tasks : List Task) (u : Task)
    (now : String) (o : SortOption) :
    ((optimisticSave tasks u now o).map Task.filePath).Perm
      (tasks.map Task.filePath) := by
  unfold optimisticSave
  refine ((sortTasks_perm _ o).map Task.filePath).trans (List.Perm.of_eq ?_)
  rw [List.map_map]
  refine List.map_congr_left ?_
  intro t _
  by_cases h : t.filePath = u.filePath <;> simp [h]

/-!
### GitSyncCoordinator (the `useGitSync` hook and the board's sync handling)
-/

/-- `SyncResult` from src/types. -/
structure SyncResult where
  pulled : Bool
  pushed : Bool
  conflicts : Bool
  message : String
deriving DecidableEq, Repr

/-- The part of `useGitSync`'s state touched by `sync`. -/
structure GitSyncState where
  isSyncing : Bool
  lastSyncResult : Option SyncResult
deriving Repr

/-- `sync` from the `useGitSync` hook (lines 70-96): raise `isSyncing`, clear
`lastSyncResult`, invoke the backend `git_sync`; a successful result is
recorded and returned; a thrown error is caught and synthesized into a
`SyncResult` with all flags false and the formatted message
`同期エラー: <error>`, recorded and returned the same way; `isSyncing` is
lowered in the `finally` block on both paths. -/
def syncRun (st : GitSyncState) (backend : Except String SyncResult) :
    SyncResult × GitSyncState :=
  match backend with
  | .ok r => (r, { st with lastSyncResult := some r, isSyncing := false })
  | .error e =>
      let r : SyncResult :=
        { pulled := false, pushed := false, conflicts := false,
          message := "同期エラー: " ++ e }
      (r, { st with lastSyncResult := some r, isSyncing := false })

/-- C8: the sync operation never throws to its caller — it is a total
function into `SyncResult`.  Every backend failure `e` is synthesized into
`SyncResult{pulled:false, pushed:false, conflicts:false, message:"同期エラー: e"}`,
and the failing call is, state and return value alike, indistinguishable from
a successful call that returned that synthesized result. -/
theorem C8_sync_never_throws (st : GitSyncState) (e : String) :
    (syncRun st (.error e)).1.pulled = false ∧
    (syncRun st (.error e)).1.pushed = false ∧
    (syncRun st (.error e)).1.conflicts = false ∧
    (syncRun st (.error e)).1.message = "同期エラー: " ++ e ∧
    (syncRun st (.error e)).2.lastSyncResult = some (syncRun st (.error e)).1 ∧
    syncRun st (.error e) =
      syncRun st (.ok { pulled := false, pushed := false, conflicts := false,
                        message := "同期エラー: " ++ e }) :=
  ⟨rfl, rfl, rfl, rfl, rfl, rfl⟩

/-!
### Single-shot auto-sync (git-enabled board, auto-sync effect)

The effect body reads the `initialSyncDone` ref and the `isChecking` /
`isGitRepo` flags; the ref persists across re-runs of the effect within one
activation (one mount of the board for a folder scope).
-/

/-- One run of the auto-sync effect: fires exactly when detection has
finished (`¬isChecking`), the folder is a git repo, and the single-shot flag
is still unset; firing sets the flag.  Returns (new flag, fired?). -/
def autoSyncStep (done : Bool) (isChecking isGitRepo : Bool) : Bool × Bool :=
  if !isChecking && isGitRepo && !done then (true, true) else (done, false)

/-- Fold the effect over a whole activation: a list of observations of
`(isChecking, isGitRepo)` at the successive effect runs.  Returns the final
flag and how many times `sync` was auto-triggered. -/
def autoSyncRuns (done : Bool) : List (Bool × Bool) → Bool × Nat
  | [] => (done, 0)
  | (c, g) :: rest =>
      let s := autoSyncStep done c g
      let r := autoSyncRuns s.1 rest
      (r.1, (if s.2 then 1 else 0) + r.2)

theorem autoSyncRuns_done (obs : List (Bool × Bool)) :
    autoSyncRuns true obs = (true, 0) := by
  induction obs with
  | nil => rfl
  | cons p rest ih => cases p with
    | mk c g => simp [autoSyncRuns, autoSyncStep, ih]

/-- C6: within a single activation of a folder scope (flag initially unset),
the automatic sync is triggered at most once over any sequence of runs of the
detection/auto-sync effect, no matter how often the repo-detection sequence
completes or with what outcomes. -/
theorem C6_auto_sync_at_most_once (obs : List (Bool × Bool)) :
    (autoSyncRuns false obs).2 ≤ 1 := by
  induction obs with
  | nil => simp [autoSyncRuns]
  | cons p rest ih =>
      cases p with
      | mk c g =>
          by_cases h : (!c && g) = true
          · simp [autoSyncRuns, autoSyncStep, h, autoSyncRuns_done]
          · simp [autoSyncRuns, autoSyncStep, h, ih]

/-!
### DragDropCoordinator (board orchestration in KanbanBoard.tsx)

`localTasks` is the preview overlay, `tasks` of the task store is the
canonical collection; `draggingTask`/`originalStatus` hold the active drag.
-/

/-- The drag-related component state of the board. -/
structure BoardState where
  localTasks : List Task
  draggingTask : Option Task
  originalStatus : Option Status
deriving Repr

/-- `STATUSES` from KanbanBoard.tsx line 27. -/
def STATUSES : List Status := [.notStarted, .inProgress, .done]

/-- The recurring overlay update `prev.map(t => t.filePath === id ?
{...t, status: s} : t)` used by the drag handlers. -/
def setStatusIn (l : List Task) (i : String) (s : Status) : List Task :=
  l.map fun t => if t.filePath = i then { t with status := s } else t

/-- `getStatusFromOverId` (KanbanBoard.tsx lines 101-111): a drop id that is
a column name resolves to that status; otherwise it is looked up as a task
`filePath` in the overlay and resolves to that task's current status; unknown
ids resolve to nothing. -/
def getStatusFromOverId (localTasks : List Task) (overId : String) :
    Option Status :=
  match STATUSES.find? (fun s => s.str == overId) with
  | some s => some s
  | none => (localTasks.find? (fun t => t.filePath == overId)).map Task.status

/-- `handleDragEnd` (KanbanBoard.tsx lines 116-145): clears the drag state;
with no drop target it reverts the overlay's dragged task to the recorded
original status; with a target it resolves the target to a status and, only
when that status differs from the original one, emits a single `saveTask`
call carrying the dragged task with the new status.  Returns the new board
state and the list of save calls made. -/
def handleDragEnd (st : BoardState) (activeId : String)
    (over : Option String) : BoardState × List Task :=
  let orig := st.originalStatus
  let cleared : BoardState :=
    { st with draggingTask := none, originalStatus := none }
  match over with
  | none =>
      match orig with
      | some a =>
          ({ cleared with localTasks := setStatusIn st.localTasks activeId a },
            [])
      | none => (cleared, [])
  | some overId =>
      match st.localTasks.find? (fun t => t.filePath == activeId) with
      | none => (cleared, [])
      | some task =>
          match getStatusFromOverId st.localTasks overId with
          | some newStatus =>
              if orig ≠ some newStatus then
                (cleared, [{ task with status := newStatus }])
              else (cleared, [])
          | none => (cleared, [])

/-- The quiescent effect of a drag end on the whole board: run
`handleDragEnd`; when it emitted a save, the task store applies the
optimistic replacement (or, on persistence failure, the reload per
`saveTask`) to the canonical collection, and the `useEffect` watching
`tasks` re-syncs the overlay to the new canonical collection.  When no save
was emitted the canonical collection is untouched and the overlay keeps
whatever `handleDragEnd` left.  Returns (canonical, board state). -/
def dragEndFull (canonical : List Task) (st : BoardState) (activeId : String)
    (over : Option String) (now : String) (o : SortOption)
    (saveRes : Except String Unit) (loadRes : Except String (List Task)) :
    List Task × BoardState :=
  let r := handleDragEnd st activeId over
  match r.2 with
  | [] => (canonical, r.1)
  | u :: _ =>
      let canonical2 : List Task :=
        match saveRes with
        | .ok _ => optimisticSave canonical u now o
        | .error _ =>
            match loadRes with
            | .ok l => sortTasks l o
            | .error _ => optimisticSave canonical u now o
      (canonical2, { r.1 with localTasks := canonical2 })

theorem find?_setStatusIn (l : List Task) (i : String) (c : Status) :
    (setStatusIn l i c).find? (fun t => t.filePath == i) =
      (l.find? (fun t => t.filePath == i)).map
        (fun t => { t with status := c }) := by
  induction l with
  | nil => rfl
  | cons t l ih =>
      by_cases h : t.filePath = i
      · simp [setStatusIn, List.find?_cons, h]
      · have hb : (t.filePath == i) = false := by simp [h]
        simp only [setStatusIn, List.map_cons] at ih ⊢
        rw [if_neg h]
        simp only [List.find?_cons, hb]
        exact ih

theorem setStatusIn_setStatusIn (l : List Task) (i : String) (c a : Status) :
    setStatusIn (setStatusIn l i c) i a = setStatusIn l i a := by
  unfold setStatusIn
  rw [List.map_map]
  refine List.map_congr_left ?_
  intro t _
  by_cases h : t.filePath = i <;> simp [h]

theorem setStatusIn_eq_self {l : List Task} {i : String} {a : Status}
    (hstat : ∀ t ∈ l, t.filePath = i → t.status = a) :
    setStatusIn l i a = l := by
  unfold setStatusIn
  conv_rhs => rw [← List.map_id l]
  refine List.map_congr_left ?_
  intro t ht
  by_cases h : t.filePath = i
  · rw [if_pos h, ← hstat t ht h]; rfl
  · rw [if_neg h]; rfl

/-- C3: for a completed drag of task `i` (drag state recorded `originalStatus
= a`, dragged task present in the overlay): a drop target resolving to a
status `b ≠ a` makes exactly one save call, carrying the dragged task with
status `b`; a target resolving to `a` makes zero save calls; a drop outside
any valid target makes zero save calls and reverts the overlay's dragged
task to its original status `a`. -/
theorem C3_drag_end_save_calls (st : BoardState) (i : String) (a : Status)
    (task : Task)
    (horig : st.originalStatus = some a)
    (hfind : st.localTasks.find? (fun t => t.filePath == i) = some task) :
    (∀ oid b, getStatusFromOverId st.localTasks oid = some b → b ≠ a →
        (handleDragEnd st i (some oid)).2 = [{ task with status := b }]) ∧
    (∀ oid, getStatusFromOverId st.localTasks oid = some a →
        (handleDragEnd st i (some oid)).2 = []) ∧
    (handleDragEnd st i none).2 = [] ∧
    (∀ t ∈ (handleDragEnd st i none).1.localTasks,
        t.filePath = i → t.status = a) := by
  refine ⟨?_, ?_, ?_, ?_⟩
  · intro oid b hres hne
    simp [handleDragEnd, hfind, hres, horig, hne.symm]
  · intro oid hres
    simp [handleDragEnd, hfind, hres, horig]
  · simp [handleDragEnd, horig]
  · have hload : (handleDragEnd st i none).1.localTasks =
        setStatusIn st.localTasks i a := by
      simp [handleDragEnd, horig]
    intro t ht hfp
    rw [hload] at ht
    unfold setStatusIn at ht
    rcases List.mem_map.mp ht with ⟨t0, _, heq⟩
    by_cases h0 : t0.filePath = i
    · rw [if_pos h0] at heq
      rw [← heq]
    · rw [if_neg h0] at heq
      rw [← heq] at hfp
      exact absurd hfp h0

/-- Sample task used to instantiate the drag-and-drop theorems. -/
def wTask : Task :=
  { filePath := "/k/a.md", title := "A", created := "2024-01-01-00:00",
    updated := "2024-01-01-00:00", status := .notStarted, priority := .low,
    due := "-", assignee := "-", subTasks := [], memo := "" }

/-- A board mid-drag: `wTask` is being dragged, original status recorded. -/
def wBoard : BoardState :=
  { localTasks := [wTask], draggingTask := some wTask,
    originalStatus := some .notStarted }

theorem C3_witness :
    (handleDragEnd wBoard "/k/a.md" (some "完了")).2 =
      [{ wTask with status := .done }] :=
  (C3_drag_end_save_calls wBoard "/k/a.md" .notStarted wTask rfl rfl).1
    "完了" .done rfl (by decide)

/-- C9: every drag end transition — drop on a different column, on the same
column, or outside any target, and whatever the emitted save's backend
outcome — clears the drag state (back to `Idle`) and leaves the preview
overlay mirroring the canonical collection.  Hypotheses record the shape the
interaction gives the board: the overlay differs from canonical only in the
dragged task's candidate status `c` (maintained by `handleDragOver`), the
canonical collection holds the dragged task at its original status `a`, and
the end event's target either is absent or resolves (in the overlay, exactly
as `handleDragOver` just resolved it) to `c`. -/
theorem C9_drag_end_idle_overlay (canonical : List Task) (st : BoardState)
    (i : String) (c a : Status) (over : Option String) (now : String)
    (o : SortOption) (saveRes : Except String Unit)
    (loadRes : Except String (List Task))
    (hoverlay : st.localTasks = setStatusIn canonical i c)
    (hstat : ∀ t ∈ canonical, t.filePath = i → t.status = a)
    (hfind : ∃ t0, canonical.find? (fun t => t.filePath == i) = some t0)
    (horig : st.originalStatus = some a)
    (hdisc : over = none ∨ ∃ oid, over = some oid ∧
        getStatusFromOverId st.localTasks oid = some c) :
    ((dragEndFull canonical st i over now o saveRes loadRes).2.draggingTask
        = none) ∧
    ((dragEndFull canonical st i over now o saveRes loadRes).2.originalStatus
        = none) ∧
    ((dragEndFull canonical st i over now o saveRes loadRes).2.localTasks =
        (dragEndFull canonical st i over now o saveRes loadRes).1) := by
  rcases hfind with ⟨t0, hfind0⟩
  have hfindL : st.localTasks.find? (fun t => t.filePath == i) =
      some { t0 with status := c } := by
    rw [hoverlay, find?_setStatusIn, hfind0]; rfl
  rcases hdisc with rfl | ⟨oid, rfl, hres⟩
  · have hL : setStatusIn st.localTasks i a = canonical := by
      rw [hoverlay, setStatusIn_setStatusIn, setStatusIn_eq_self hstat]
    simp [dragEndFull, handleDragEnd, horig, hL]
  · by_cases hac : a = c
    · subst hac
      have hL : st.localTasks = canonical := by
        rw [hoverlay, setStatusIn_eq_self hstat]
      rw [hL] at hfindL hres
      simp [dragEndFull, handleDragEnd, horig, hfindL, hres, hL]
    · simp [dragEndFull, handleDragEnd, horig, hfindL, hres, hac]

/-- A board mid-drag whose overlay already previews `wTask` under `完了`. -/
def wBoardDrag : BoardState :=
  { localTasks := [{ wTask with status := .done }],
    draggingTask := some wTask, originalStatus := some .notStarted }

theorem C9_witness :
    ((dragEndFull [wTask] wBoardDrag "/k/a.md" (some "完了")
        "2024-01-02-00:00" .createdDesc (.ok ()) (.ok [])).2.draggingTask
        = none) ∧
    ((dragEndFull [wTask] wBoardDrag "/k/a.md" (some "完了")
        "2024-01-02-00:00" .createdDesc (.ok ()) (.ok [])).2.originalStatus
        = none) ∧
    ((dragEndFull [wTask] wBoardDrag "/k/a.md" (some "完了")
        "2024-01-02-00:00" .createdDesc (.ok ()) (.ok [])).2.localTasks =
        (dragEndFull [wTask] wBoardDrag "/k/a.md" (some "完了")
          "2024-01-02-00:00" .createdDesc (.ok ()) (.ok [])).1) :=
  C9_drag_end_idle_overlay [wTask] wBoardDrag "/k/a.md" .done .notStarted
    (some "完了") "2024-01-02-00:00" .createdDesc (.ok ()) (.ok [])
    rfl (by decide) ⟨wTask, rfl⟩ rfl (Or.inr ⟨"完了", rfl, rfl⟩)

/-!
### Sync message lifecycle (`handleSync`, git-enabled board, lines 408-422)

`handleSync` clears any visible message at its start (`setSyncMessage(null)`),
sets the result message once the backend call returns, optionally awaits a
full task reload when the sync pulled, and only then schedules
`setTimeout(() => setSyncMessage(null), 3000)`.  The model records one
execution of `handleSync` as the three writes it makes to the `syncMessage`
state cell, each stamped with the time it happens.
-/

/-- One execution of `handleSync`: it begins at `tStart` (the initial
`setSyncMessage(null)`), the awaited `sync` returns and the message is set at
`tMsg`, and when `pulled` is true the awaited `loadTasks` completes at
`loadDone`, after which the 3000ms clear timer is scheduled. -/
structure SyncRunT where
  tStart : Nat
  tMsg : Nat
  pulled : Bool
  loadDone : Nat
  msg : String
deriving Repr

/-- The time at which the run schedules its `setTimeout` clear: right at
`tMsg` when nothing was pulled, else after the post-pull reload completes. -/
def timerSched (r : SyncRunT) : Nat :=
  if r.pulled then r.loadDone else r.tMsg

/-- The three writes to `syncMessage` made by one `handleSync` run: the
clear at its start, the result message, and the timer's clear 3000ms after
it was scheduled. -/
def runWrites (r : SyncRunT) : List (Nat × Option String) :=
  [(r.tStart, none), (r.tMsg, some r.msg), (timerSched r + 3000, none)]

/-- All writes of a set of runs, in chronological order. -/
def chronOf (runs : List SyncRunT) : List (Nat × Option String) :=
  List.insertionSort (fun x y => x.1 ≤ y.1) (runs.flatMap runWrites)

/-- The value of the `syncMessage` cell at time `t`: the last write not after
`t` wins (writes listed chronologically). -/
def msgAt (ws : List (Nat × Option String)) (t : Nat) : Option String :=
  ws.foldl (fun m w => if w.1 ≤ t then w.2 else m) none

/-- First sync: begins at 0, backend returns at 10 with message "A" and
`pulled = true`; the reload finishes at 5010, so the clear timer fires at
8010. -/
def syncRunA : SyncRunT :=
  { tStart := 0, tMsg := 10, pulled := true, loadDone := 5010, msg := "A" }

/-- Second sync, manually triggered at 4000 (the `isSyncing` guard is false
then: the first run's `finally` already lowered it at 10). -/
def syncRunB : SyncRunT :=
  { tStart := 4000, tMsg := 20000, pulled := false, loadDone := 0,
    msg := "B" }

/-- C7 counterexample: the message set at time T = 10 is still visible at
T + 3000 = 3010 (its timer was only scheduled after the post-pull reload, at
5010, to fire at 8010), and it is cleared at time 4000 by the start of the
second sync — a path other than the automatic timer.  Both prongs of the
claim fail on this interleaving. -/
theorem C7_counterexample :
    msgAt (chronOf [syncRunA, syncRunB]) (syncRunA.tMsg + 3000) = some "A" ∧
    msgAt (chronOf [syncRunA, syncRunB]) 3999 = some "A" ∧
    msgAt (chronOf [syncRunA, syncRunB]) syncRunB.tStart = none ∧
    syncRunB.tStart < timerSched syncRunA + 3000 :=
  ⟨rfl, rfl, rfl, by decide⟩

/-- C7 as amended: within a single `handleSync` run, a message set at time T
stays visible until the run's clear timer fires, exactly 3000ms after the
timer is scheduled (at T itself when the sync did not pull, or when the
post-pull reload completes otherwise), and that timer is the only clearing
path; a concurrent later sync may clear it earlier, per the counterexample. -/
theorem C7_message_cleared_by_timer (r : SyncRunT) (h1 : r.tStart ≤ r.tMsg)
    (h2 : r.tMsg ≤ timerSched r) :
    (∀ t, r.tMsg ≤ t → t < timerSched r + 3000 →
        msgAt (chronOf [r]) t = some r.msg) ∧
    msgAt (chronOf [r]) (timerSched r + 3000) = none := by
  have hb : ([r].flatMap runWrites) = runWrites r := by simp
  have hsorted : List.Sorted (fun x y : Nat × Option String => x.1 ≤ y.1)
      [(r.tStart, (none : Option String)), (r.tMsg, some r.msg),
        (timerSched r + 3000, none)] := by
    simp [List.sorted_cons]
    omega
  have hc : chronOf [r] =
      [(r.tStart, none), (r.tMsg, some r.msg),
        (timerSched r + 3000, none)] := by
    unfold chronOf
    rw [hb]
    exact hsorted.insertionSort_eq
  have hms : ∀ t, msgAt [(r.tStart, (none : Option String)),
      (r.tMsg, some r.msg), (timerSched r + 3000, none)] t =
      if timerSched r + 3000 ≤ t then none
      else if r.tMsg ≤ t then some r.msg
      else if r.tStart ≤ t then none
      else none := fun t => rfl
  refine ⟨fun t ht1 ht2 => ?_, ?_⟩
  · rw [hc, hms, if_neg (by omega), if_pos ht1]
  · rw [hc, hms, if_pos (Nat.le_refl _)]

theorem C7_witness :
    msgAt (chronOf [syncRunB]) 20100 = some "B" ∧
    msgAt (chronOf [syncRunB]) (timerSched syncRunB + 3000) = none :=
  ⟨(C7_message_cleared_by_timer syncRunB (by decide) (by decide)).1 20100
      (by decide) (by decide),
    (C7_message_cleared_by_timer syncRunB (by decide) (by decide)).2⟩

end Kanban
